import Mathlib

/- Verification of the merge engine of `scripts/new_bookmark.py`.

   Python strings are modelled as `List Char` (abbreviated `Str`).
   `str.lower` is modelled per character with `Char.toLower` (ASCII case
   folding; the repository's data is ASCII), `str.strip`/`str.rstrip`
   with the ASCII whitespace set, and `str.splitlines` with the newline
   character (the repository's artifacts are `\n`-separated).  Python
   list sorting (Timsort) is stable, as is `List.insertionSort`, so the
   latter models `list.sort(key=...)` extensionally.  Fallible Python
   code (functions that may raise) is modelled with `Except`. -/

set_option maxHeartbeats 1000000

namespace NewBookmark

abbrev Str := List Char

/-- Python `s.lower()` (ASCII). -/
def lowerStr (s : Str) : Str := s.map Char.toLower

/-- Python's default whitespace set for `str.strip` (ASCII part). -/
def pyIsSpaceChar (c : Char) : Bool :=
  c == ' ' || c == '\t' || c == '\n' || c == '\r' || c == '\x0b' || c == '\x0c'

/-- Python `s.rstrip()`. -/
def pyRstrip (s : Str) : Str := (s.reverse.dropWhile pyIsSpaceChar).reverse

/-- Python `s.lstrip()`. -/
def pyLstrip (s : Str) : Str := s.dropWhile pyIsSpaceChar

/-- Python `s.strip()`. -/
def pyStrip (s : Str) : Str := pyLstrip (pyRstrip s)

/-- Python `s.rstrip(c)` for a single-character strip set. -/
def pyRstripChar (c : Char) (s : Str) : Str :=
  (s.reverse.dropWhile (fun a => a == c)).reverse

/-- The item identity key of `upsert_item`: `url.rstrip('/')`. -/
def normUrl (u : Str) : Str := pyRstripChar '/' u

/-- Python string `<=` (lexicographic on code points). -/
def strLe : Str → Str → Bool
  | [], _ => true
  | _ :: _, [] => false
  | a :: as, b :: bs => if a < b then true else if b < a then false else strLe as bs

/-- Python `str.splitlines` restricted to `'\n'` separators. -/
def splitlines : Str → List Str
  | [] => []
  | c :: r =>
    if c = '\n' then [] :: splitlines r
    else
      match splitlines r with
      | [] => [[c]]
      | l :: ls => (c :: l) :: ls

/-- Python `whole.find(pat)`: index of the first occurrence of `pat` in
    `s`, as an `Option` instead of `-1`. -/
def findSub (s pat : Str) : Option Nat :=
  if pat.isPrefixOf s then some 0
  else
    match s with
    | [] => none
    | _ :: t =>
      match findSub t pat with
      | some n => some (n + 1)
      | none => none

/-- `pat` occurs in `s` at position `i`. -/
def occursAt (pat s : Str) (i : Nat) : Prop := pat <+: s.drop i

-- ---------------------------------------------------------------------
-- Data model (`data/<slug>.json`): items, groups, category documents.
-- ---------------------------------------------------------------------

structure Item where
  title : Str
  url : Str
  description : Str
deriving DecidableEq

structure Group where
  name : Str
  items : List Item
deriving DecidableEq

structure CategoryDoc where
  category : Str
  groups : List Group
deriving DecidableEq

/-- `existing.update({k: v for k, v in item.items() if v})`: overwrite
    only the fields for which the incoming item has a non-empty value. -/
def mergeItem (x it : Item) : Item :=
  { title := if it.title = [] then x.title else it.title
    url := if it.url = [] then x.url else it.url
    description := if it.description = [] then x.description else it.description }

/-- The item upsert inside a group: merge into the first item whose
    normalized URL matches, otherwise append at the end. -/
def upsertItems : List Item → Item → List Item
  | [], it => [it]
  | x :: xs, it =>
    if normUrl x.url = normUrl it.url then mergeItem x it :: xs
    else x :: upsertItems xs it

/-- Sort key relation of `items.sort(key=lambda x: (x.get('title') or '').lower())`. -/
def itemLe (x y : Item) : Prop := strLe (lowerStr x.title) (lowerStr y.title) = true

instance : DecidableRel itemLe := fun a b =>
  inferInstanceAs (Decidable (strLe (lowerStr a.title) (lowerStr b.title) = true))

/-- Sort key relation of `groups.sort(key=lambda x: x['name'].lower())`. -/
def groupLe (g h : Group) : Prop := strLe (lowerStr g.name) (lowerStr h.name) = true

instance : DecidableRel groupLe := fun a b =>
  inferInstanceAs (Decidable (strLe (lowerStr a.name) (lowerStr b.name) = true))

/-- Run the item upsert on a group's items and re-sort them. -/
def touchGroup (g : Group) (it : Item) : Group :=
  ⟨g.name, List.insertionSort itemLe (upsertItems g.items it)⟩

/-- Find the first group with the case-insensitively matching name and
    run the item upsert inside it; create the group (appended at the
    end) when none matches. -/
def updateGroups (gname : Str) (it : Item) : List Group → List Group
  | [] => [touchGroup ⟨gname, []⟩ it]
  | g :: gs =>
    if lowerStr g.name = lowerStr gname then touchGroup g it :: gs
    else g :: updateGroups gname it gs

def generalStr : Str := "General".data

/-- `upsert_item(data, group_name, item)` of `scripts/new_bookmark.py`,
    as a function on documents. -/
def upsert_item (d : CategoryDoc) (groupName : Str) (it : Item) : CategoryDoc :=
  let gname := pyStrip (if groupName = [] then generalStr else groupName)
  ⟨d.category, List.insertionSort groupLe (updateGroups gname it d.groups)⟩

/-- A sequence of upserts applied to a freshly created document
    (`{'category': cat, 'groups': []}`). -/
def applyOps (cat : Str) (ops : List (Str × Item)) : CategoryDoc :=
  ops.foldl (fun d p => upsert_item d p.1 p.2) ⟨cat, []⟩

/-- The data-model invariants of the spec (§3): no two groups with
    case-insensitively equal names, and within a group no two items
    with equal identity keys. -/
def DocWF (d : CategoryDoc) : Prop :=
  (d.groups.map (fun g => lowerStr g.name)).Nodup ∧
    ∀ g ∈ d.groups, (g.items.map (fun x => normUrl x.url)).Nodup

-- ---------------------------------------------------------------------
-- Marker-region rewriting (`insert_between`) and the index-link step.
-- ---------------------------------------------------------------------

def CAT_STARTs : Str := "<!-- AUTO-CATEGORIES:START -->".data

def CAT_ENDs : Str := "<!-- AUTO-CATEGORIES:END -->".data

/-- The dedupe test of `insert_between`:
    `dedupe_line and dedupe_line.strip() in [l.strip() for l in lines]`
    where `lines` is the list of non-blank lines of the middle segment. -/
def dedupeHit (dedupe : Option Str) (mid : Str) : Bool :=
  match dedupe with
  | none => false
  | some d =>
    if d = [] then false
    else decide (pyStrip d ∈ ((splitlines mid).filter (fun l => !(pyStrip l).isEmpty)).map pyStrip)

/-- `if middle and not middle.endswith('\n'): middle += '\n'`. -/
def ensureNl (mid : Str) : Str :=
  if mid ≠ [] ∧ mid.getLast? ≠ some '\n' then mid ++ ['\n'] else mid

/-- `insert_between(mark_start, mark_end, whole, new_li, dedupe_line)`;
    the `RuntimeError('Missing AUTO markers')` raise is an `Except.error`. -/
def insert_between (markStart markEnd whole newLi : Str) (dedupe : Option Str) :
    Except Str Str :=
  match findSub whole markStart, findSub whole markEnd with
  | some s0, some e0 =>
    if e0 < s0 then Except.error "Missing AUTO markers".data
    else
      let mid := (whole.drop (s0 + markStart.length)).take (e0 - (s0 + markStart.length))
      if dedupeHit dedupe mid then Except.ok whole
      else
        Except.ok (whole.take (s0 + markStart.length) ++
          '\n' :: (ensureNl mid ++ pyRstrip newLi ++ ['\n']) ++ whole.drop e0)
  | _, _ => Except.error "Missing AUTO markers".data

/-- Join lines back, each terminated by a newline. -/
def joinLinesNl (ls : List Str) : Str := ls.foldr (fun l acc => l ++ '\n' :: acc) []

/-- Modelled from the spec (claim wording, for comparison with
    `insert_between`): the reassembly "part up to and including the start
    marker, middle segment with blank lines dropped, new content appended
    as a new line, part from the end marker onward, nothing else
    changed". -/
def insertBetweenSpecC8 (markStart markEnd whole newLi : Str) : Str :=
  match findSub whole markStart, findSub whole markEnd with
  | some s0, some e0 =>
    let mid := (whole.drop (s0 + markStart.length)).take (e0 - (s0 + markStart.length))
    whole.take (s0 + markStart.length) ++
      joinLinesNl ((splitlines mid).filter (fun l => !(pyStrip l).isEmpty)) ++
      pyRstrip newLi ++ '\n' :: whole.drop e0
  | _, _ => whole

/-- Python line-break characters (the `str.splitlines` separator set). -/
def isLineBreakChar (c : Char) : Bool :=
  c == '\n' || c == '\r' || c == '\x0b' || c == '\x0c' || c == '\x1c' ||
    c == '\x1d' || c == '\x1e' || c == '\x85' || c == '\u2028' || c == '\u2029'

/-- Fuel-driven model of `re.sub(r'<.*?>', '', li)`: each `<` with a
    later `>` is removed together with everything up to the first such
    `>`.  The fuel `s.length` always suffices because every step
    consumes at least one character. -/
def stripTagsGo : Nat → Str → Str
  | 0, s => s
  | _ + 1, [] => []
  | fuel + 1, '<' :: rest =>
    (match rest.findIdx? (fun c => c == '>') with
     | some k => stripTagsGo fuel (rest.drop (k + 1))
     | none => '<' :: stripTagsGo fuel rest)
  | fuel + 1, c :: rest => c :: stripTagsGo fuel rest

def stripTags (s : Str) : Str := stripTagsGo s.length s

def liOpenStr : Str := "<li>".data

def liCloseStr : Str := "</li>".data

/-- Case-insensitive substring search (for `re.I`). -/
def findSubCI (s pat : Str) : Option Nat := findSub (lowerStr s) (lowerStr pat)

/-- Fuel-driven model of `re.findall(r'<li>.*?</li>', middle, re.I | re.S)`:
    scan for a case-insensitive `<li>`, complete it non-greedily with the
    first following `</li>`, and continue after the match.  The fuel
    `s.length` always suffices (every match consumes nine characters or
    more). -/
def findAllLiGo : Nat → Str → List Str
  | 0, _ => []
  | fuel + 1, s =>
    match findSubCI s liOpenStr with
    | none => []
    | some i =>
      match findSubCI (s.drop (i + 4)) liCloseStr with
      | none => []
      | some k => (s.drop i).take (4 + k + 5) :: findAllLiGo fuel (s.drop (i + 4 + k + 5))

def findAllLi (s : Str) : List Str := findAllLiGo s.length s

/-- The link entry `f'<li><a href="categories/{slug}.html">{name}</a></li>'`. -/
def catLinkLi (name slug : Str) : Str :=
  "<li><a href=\"categories/".data ++ slug ++ ".html\">".data ++ name ++ "</a></li>".data

/-- The dedupe needle `f'href="categories/{slug}.html"'`. -/
def hrefNeedle (slug : Str) : Str :=
  "href=\"categories/".data ++ slug ++ ".html\"".data

/-- Sort key `re.sub(r'<.*?>', '', li).strip().lower()` of the index list. -/
def liVisibleKey (li : Str) : Str := lowerStr (pyStrip (stripTags li))

def liLe (a b : Str) : Prop := strLe (liVisibleKey a) (liVisibleKey b) = true

instance : DecidableRel liLe := fun a b =>
  inferInstanceAs (Decidable (strLe (liVisibleKey a) (liVisibleKey b) = true))

/-- The `try`-branch of `ensure_category_link_on_index` when both markers
    were found in order: re-list, dedupe by `href`, sort by visible text,
    rebuild the region. -/
def indexHappy (name slug html : Str) (s0 e0 : Nat) : Str :=
  let mid := (html.drop (s0 + CAT_STARTs.length)).take (e0 - (s0 + CAT_STARTs.length))
  let lis := findAllLi mid
  let lis2 := if lis.any (fun li => (findSub li (hrefNeedle slug)).isSome) then lis
              else lis ++ [catLinkLi name slug]
  html.take (s0 + CAT_STARTs.length) ++
    '\n' :: (List.intercalate ['\n'] (List.insertionSort liLe lis2) ++ '\n' :: html.drop e0)

/-- `ensure_category_link_on_index` on the index content (the function
    returns early before reading when the index file is absent; this
    models the body after the read).  The `except RuntimeError` handler
    re-runs `insert_between`, whose own raise is not caught. -/
def ensure_category_link_on_index (name slug html : Str) : Except Str Str :=
  let linkLi := catLinkLi name slug
  match findSub html CAT_STARTs, findSub html CAT_ENDs with
  | some s0, some e0 =>
    if e0 < s0 then insert_between CAT_STARTs CAT_ENDs html linkLi (some linkLi)
    else Except.ok (indexHappy name slug html s0 e0)
  | _, _ => insert_between CAT_STARTs CAT_ENDs html linkLi (some linkLi)

-- ---------------------------------------------------------------------
-- Classification: keyword fallback and the AI-response handling path.
-- ---------------------------------------------------------------------

def KEYWORD_MAP : List (Str × List Str) :=
  [("Domain Blogs".data, ["blog".data, "news".data, "journal".data]),
   ("Marketplaces".data,
    ["marketplace".data, "afternic".data, "sedo".data, "dan.com".data, "buy domains".data]),
   ("Appraisal Tools".data, ["appraisal".data, "valuation".data, "worth".data]),
   ("Name Generators".data, ["generator".data, "brainstorm".data, "ideas".data]),
   ("WHOIS / Research".data, ["whois".data, "dns".data, "lookup".data]),
   ("Drops & Auctions".data,
    ["expired".data, "auction".data, "backorder".data, "drop".data, "closeout".data]),
   ("Brandable Marketplaces".data,
    ["brandable".data, "brandbucket".data, "atom".data, "squadhelp".data])]

/-- `fallback_category(title, desc, url)`: first keyword rule whose
    keyword occurs in the lowercased concatenation, else `'General'`. -/
def fallback_category (title desc url : Str) : Str :=
  let t := lowerStr (title ++ ' ' :: desc ++ ' ' :: url)
  match KEYWORD_MAP.find? (fun p => p.2.any (fun kw => (findSub t kw).isSome)) with
  | some p => p.1
  | none => "General".data

/-- Modelled from the spec: `slugify` is the external `python-slugify`
    library call, described in §4.3 as "lowercase, non-alphanumeric runs
    collapsed to single hyphens, edge hyphens trimmed". -/
def slugify (s : Str) : Str :=
  List.intercalate ['-']
    (((lowerStr s).splitOnP (fun c => !c.isAlphanum)).filter (fun w => !w.isEmpty))

/-- A parsed classifier JSON object, with each expected field optional
    (`json.loads` is the external `json` library; it is passed in as the
    `loads` parameter below, returning `none` where Python raises). -/
structure AIData where
  category_name : Option Str
  group_name : Option Str
  short_title : Option Str
  description : Option Str
  suggested_category_slug : Option Str
deriving DecidableEq

def emptyAIData : AIData := ⟨none, none, none, none, none⟩

/-- `re.search(r"\x7b[\s\S]*\x7d", txt)`: from the first opening brace
    to the last closing brace, when the latter comes after the former. -/
def extractBraces (txt : Str) : Option Str :=
  match txt.findIdx? (fun c => c == '{') with
  | none => none
  | some i =>
    match txt.reverse.findIdx? (fun c => c == '}') with
    | none => none
    | some rk =>
      let j := txt.length - 1 - rk
      if i < j then some ((txt.drop i).take (j - i + 1)) else none

/-- The response-parsing step of `ai_categorize`: `json.loads(txt)` with
    `except`-fallback to `json.loads(m.group(0))` on the brace-extracted
    region (that second call is outside any `try` and raises on failure)
    or `{}` when no brace region exists. -/
def ai_categorize_parse (loads : Str → Option AIData) (txt : Str) : Except Str AIData :=
  match loads txt with
  | some d => Except.ok d
  | none =>
    match extractBraces txt with
    | some seg =>
      match loads seg with
      | some d => Except.ok d
      | none => Except.error "json.decoder.JSONDecodeError".data
    | none => Except.ok emptyAIData

/-- The field backfill at the end of `ai_categorize`. -/
def backfill (title desc url : Str) (d : AIData) : AIData :=
  let cname := d.category_name.getD (fallback_category title desc url)
  { category_name := some cname
    group_name := d.group_name
    short_title := some (d.short_title.getD (title.take 60))
    description := if desc ≠ [] ∧ d.description = none then some (desc.take 220) else d.description
    suggested_category_slug := some (d.suggested_category_slug.getD (slugify cname)) }

/-- The response-handling path of `ai_categorize` (after the external
    chat-completion call returned the raw text `txt`). -/
def ai_categorize (loads : Str → Option AIData) (title desc url txt : Str) :
    Except Str AIData :=
  (ai_categorize_parse loads txt).map (backfill title desc url)

-- ---------------------------------------------------------------------
-- The `__main__` glue of the non-AI path (overrides and truncation).
-- ---------------------------------------------------------------------

/-- `read_override(rx, text)` for the label regexes
    `^Label:\s*(.+)$` with `re.I | re.M` (`label` is given lowercased,
    colon included).  Modelled line-locally: a `\s*` run spanning a
    newline (a label line whose value starts on a later line) is not
    modelled — it only affects which override value is selected, never
    the truncation applied to it afterwards. -/
def readOverride (label : Str) (text : Str) : Option Str :=
  (splitlines text).findSome? (fun l =>
    if label.isPrefixOf (lowerStr l) ∧ l.drop label.length ≠ [] then
      some (pyStrip (l.drop label.length))
    else none)

/-- The item built by `__main__` in the non-AI path: fallback title and
    description, then the `Title:` / `Description:` overrides, each
    sliced to 60 / 220 characters before use; the emitted
    `short_title` output and the stored item's `title` coincide, as do
    `description` and the stored item's `description`. -/
def mainItemNonAI (pageTitle metaDesc finalUrl issueBody : Str) : Item :=
  let shortTitle := pageTitle.take 60
  let description := (if metaDesc ≠ [] then metaDesc else "Resource: ".data ++ pageTitle).take 220
  let description2 :=
    match readOverride "description:".data issueBody with
    | some d => if d ≠ [] then d.take 220 else description
    | none => description
  let shortTitle2 :=
    match readOverride "title:".data issueBody with
    | some t => if t ≠ [] then t.take 60 else shortTitle
    | none => shortTitle
  ⟨shortTitle2, finalUrl, description2⟩

-- ---------------------------------------------------------------------
-- Order lemmas for the sort-key relations.
-- ---------------------------------------------------------------------

theorem strLe_refl (s : Str) : strLe s s = true := by
  induction s with
  | nil => rfl
  | cons a as ih => simpa [strLe, lt_irrefl] using ih

theorem strLe_total (a b : Str) : strLe a b = true ∨ strLe b a = true := by
  induction a generalizing b with
  | nil => exact Or.inl rfl
  | cons x xs ih =>
    cases b with
    | nil => exact Or.inr rfl
    | cons y ys =>
      rcases lt_trichotomy x y with h | h | h
      · exact Or.inl (by simp [strLe, h])
      · subst h
        rcases ih ys with h' | h'
        · exact Or.inl (by simp [strLe, lt_irrefl, h'])
        · exact Or.inr (by simp [strLe, lt_irrefl, h'])
      · exact Or.inr (by simp [strLe, h])

theorem strLe_trans {a b c : Str} (h1 : strLe a b = true) (h2 : strLe b c = true) :
    strLe a c = true := by
  induction a generalizing b c with
  | nil => rfl
  | cons x xs ih =>
    cases b with
    | nil => simp [strLe] at h1
    | cons y ys =>
      cases c with
      | nil => simp [strLe] at h2
      | cons z zs =>
        simp only [strLe] at h1 h2 ⊢
        rcases lt_trichotomy x y with hxy | rfl | hxy
        · rcases lt_trichotomy y z with hyz | rfl | hyz
          · rw [if_pos (lt_trans hxy hyz)]
          · rw [if_pos hxy]
          · rw [if_neg (asymm hyz), if_pos hyz] at h2
            exact absurd h2 (by decide)
        · rw [if_neg (lt_irrefl x), if_neg (lt_irrefl x)] at h1
          rcases lt_trichotomy x z with hxz | rfl | hxz
          · rw [if_pos hxz]
          · rw [if_neg (lt_irrefl x), if_neg (lt_irrefl x)] at h2 ⊢
            exact ih h1 h2
          · rw [if_neg (asymm hxz), if_pos hxz] at h2
            exact absurd h2 (by decide)
        · rw [if_neg (asymm hxy), if_pos hxy] at h1
          exact absurd h1 (by decide)

instance : IsTotal Item itemLe :=
  ⟨fun a b => strLe_total (lowerStr a.title) (lowerStr b.title)⟩

instance : IsTrans Item itemLe := ⟨fun _ _ _ h1 h2 => strLe_trans h1 h2⟩

instance : IsTotal Group groupLe :=
  ⟨fun a b => strLe_total (lowerStr a.name) (lowerStr b.name)⟩

instance : IsTrans Group groupLe := ⟨fun _ _ _ h1 h2 => strLe_trans h1 h2⟩

/-- Stripping the trailing-slash set absorbs one appended slash. -/
theorem normUrl_append_slash (u : Str) : normUrl (u ++ ['/']) = normUrl u := by
  simp [normUrl, pyRstripChar, List.reverse_append, List.dropWhile_cons]

/-- Shared helper: an upsert into a one-group, one-item document whose
    item has a matching identity key merges instead of appending. -/
theorem upsert_singleton_merge (cat gname : Str) (x it : Item)
    (hg0 : gname ≠ []) (hg1 : pyStrip gname = gname)
    (hurl : normUrl x.url = normUrl it.url) :
    (upsert_item ⟨cat, [⟨gname, [x]⟩]⟩ gname it).groups = [⟨gname, [mergeItem x it]⟩] := by
  unfold upsert_item
  rw [if_neg hg0, hg1]
  simp only [updateGroups, if_pos rfl, touchGroup, upsertItems, if_pos hurl]
  simp [List.insertionSort, List.orderedInsert]

/-- C2: when the incoming item's normalized URL matches the existing
    item, only non-empty incoming fields overwrite the existing fields;
    empty incoming fields never erase existing data. -/
theorem upsert_item_partial_merge (cat gname : Str) (x it : Item)
    (hg0 : gname ≠ []) (hg1 : pyStrip gname = gname)
    (hurl : normUrl x.url = normUrl it.url) :
    (upsert_item ⟨cat, [⟨gname, [x]⟩]⟩ gname it).groups =
      [⟨gname, [⟨if it.title = [] then x.title else it.title,
                 if it.url = [] then x.url else it.url,
                 if it.description = [] then x.description else it.description⟩]⟩] :=
  upsert_singleton_merge cat gname x it hg0 hg1 hurl

/-- C2 witness: the spec's concrete instance — upserting
    `{title: "", url: U, description: "new"}` onto
    `{title: "Old", url: U, description: "orig"}` yields
    `{title: "Old", url: U, description: "new"}`. -/
theorem upsert_item_partial_merge_witness :
    (upsert_item ⟨"Cat".data, [⟨"General".data, [⟨"Old".data, "https://ex.com/a".data, "orig".data⟩]⟩]⟩
        "General".data ⟨[], "https://ex.com/a".data, "new".data⟩).groups =
      [⟨"General".data, [⟨"Old".data, "https://ex.com/a".data, "new".data⟩]⟩] :=
  (upsert_item_partial_merge "Cat".data "General".data
      ⟨"Old".data, "https://ex.com/a".data, "orig".data⟩
      ⟨[], "https://ex.com/a".data, "new".data⟩
      (by decide) (by decide) (by decide)).trans (by decide)

/-- C4: an incoming URL that differs from the stored one only by a
    trailing slash has the same identity key, so the upsert merges into
    the single existing item instead of appending a second one. -/
theorem upsert_item_trailing_slash_merges (cat t1 d1 t2 d2 U : Str) :
    (upsert_item ⟨cat, [⟨generalStr, [⟨t1, U, d1⟩]⟩]⟩ generalStr ⟨t2, U ++ ['/'], d2⟩).groups =
      [⟨generalStr, [⟨if t2 = [] then t1 else t2, U ++ ['/'],
                      if d2 = [] then d1 else d2⟩]⟩] := by
  have h := upsert_singleton_merge cat generalStr ⟨t1, U, d1⟩ ⟨t2, U ++ ['/'], d2⟩
    (by decide) (by decide) (normUrl_append_slash U).symm
  rw [h]
  simp [mergeItem, List.append_ne_nil_of_right_ne_nil]

/-- C9: in the non-AI path the stored item's title is sliced to at most
    60 characters and its description to at most 220, also when a
    `Title:` or `Description:` override supplies a longer value. -/
theorem mainItemNonAI_length_bounds (pageTitle metaDesc finalUrl issueBody : Str) :
    (mainItemNonAI pageTitle metaDesc finalUrl issueBody).title.length ≤ 60 ∧
      (mainItemNonAI pageTitle metaDesc finalUrl issueBody).description.length ≤ 220 := by
  unfold mainItemNonAI
  constructor
  · cases readOverride "title:".data issueBody with
    | none => exact List.length_take_le 60 pageTitle
    | some t =>
      by_cases ht : t = []
      · simp [ht, List.length_take_le]
      · simp [ht, List.length_take_le]
  · cases readOverride "description:".data issueBody with
    | none => exact List.length_take_le 220 _
    | some d =>
      by_cases hd : d = []
      · simp [hd, List.length_take_le]
      · simp [hd, List.length_take_le]

/-- C5 (code bug): with an index content that lacks the AUTO markers,
    `ensure_category_link_on_index` raises `RuntimeError('Missing AUTO
    markers')` out of its own `except` handler (the handler re-runs
    `insert_between`, which re-raises) instead of being a no-op. -/
theorem ensure_index_missing_markers_raises :
    ensure_category_link_on_index "Marketplaces".data "marketplaces".data "hello".data =
      Except.error "Missing AUTO markers".data := rfl

/-- C6 (code bug): a classifier response that is invalid JSON but
    contains a brace region that is itself invalid JSON (for example
    `"{oops}"`) makes the response handling raise `JSONDecodeError` from
    the unguarded second `json.loads` instead of recovering. -/
theorem ai_categorize_raises_on_unparsable_brace_text
    (loads : Str → Option AIData) (title desc url : Str)
    (h : loads "{oops}".data = none) :
    ai_categorize loads title desc url "{oops}".data =
      Except.error "json.decoder.JSONDecodeError".data := by
  unfold ai_categorize ai_categorize_parse
  rw [h]
  have hb : extractBraces "{oops}".data = some "{oops}".data := by decide
  rw [hb]
  dsimp only
  rw [h]
  rfl

/-- C6 witness: the failing response text with a `loads` that rejects
    it, as Python's `json.loads` does. -/
theorem ai_categorize_raises_witness :
    ai_categorize (fun _ => none) "t".data "d".data "u".data "{oops}".data =
      Except.error "json.decoder.JSONDecodeError".data :=
  ai_categorize_raises_on_unparsable_brace_text (fun _ => none) "t".data "d".data "u".data rfl

/-- C8 counterexample: on a region whose middle is `"X\n\nY\n"`, the code
    keeps the blank line and inserts an extra newline after the start
    marker, so the result differs from the reassembly the claim
    describes (middle with blank lines dropped, nothing else changed). -/
theorem insert_between_reassembly_counterexample :
    insert_between CAT_STARTs CAT_ENDs (CAT_STARTs ++ "X\n\nY\n".data ++ CAT_ENDs)
        "Z".data (some "Z".data) =
      Except.ok (CAT_STARTs ++ '\n' :: ("X\n\nY\nZ\n".data ++ CAT_ENDs)) ∧
    CAT_STARTs ++ '\n' :: ("X\n\nY\nZ\n".data ++ CAT_ENDs) ≠
      insertBetweenSpecC8 CAT_STARTs CAT_ENDs (CAT_STARTs ++ "X\n\nY\n".data ++ CAT_ENDs)
        "Z".data :=
  ⟨rfl, by decide⟩

/-- C8 amended: when both markers are found in order and the dedupe key
    is not among the region's non-blank lines, the result is the part up
    to and including the start marker, an inserted newline, the middle
    segment unchanged (blank lines retained, a final newline appended
    when the segment is non-empty and lacks one), the right-stripped new
    content plus a newline, and the part from the end marker onward. -/
theorem insert_between_reassembly_amended
    (whole newLi : Str) (dedupe : Option Str) (s0 e0 : Nat)
    (hs : findSub whole CAT_STARTs = some s0)
    (he : findSub whole CAT_ENDs = some e0)
    (hord : s0 + CAT_STARTs.length ≤ e0)
    (hded : dedupeHit dedupe
        ((whole.drop (s0 + CAT_STARTs.length)).take (e0 - (s0 + CAT_STARTs.length))) = false) :
    insert_between CAT_STARTs CAT_ENDs whole newLi dedupe =
      Except.ok (whole.take (s0 + CAT_STARTs.length) ++
        '\n' :: (ensureNl ((whole.drop (s0 + CAT_STARTs.length)).take
              (e0 - (s0 + CAT_STARTs.length))) ++
          pyRstrip newLi ++ ['\n']) ++ whole.drop e0) := by
  unfold insert_between
  rw [hs, he]
  dsimp only
  rw [if_neg (show ¬ e0 < s0 by omega), hded]
  simp [List.append_assoc]

/-- C8 amended, witness: a concrete region rebuilt by the amended
    reassembly description. -/
theorem insert_between_reassembly_amended_witness :
    insert_between CAT_STARTs CAT_ENDs (CAT_STARTs ++ "A\n".data ++ CAT_ENDs)
        "<li>z</li>".data (some "<li>z</li>".data) =
      Except.ok (CAT_STARTs ++ '\n' :: ("A\n<li>z</li>\n".data ++ CAT_ENDs)) :=
  (insert_between_reassembly_amended (CAT_STARTs ++ "A\n".data ++ CAT_ENDs)
      "<li>z</li>".data (some "<li>z</li>".data) 0 (CAT_STARTs.length + 2)
      (by decide) (by decide) (by decide) (by decide)).trans
    (congrArg Except.ok (by decide))

-- ---------------------------------------------------------------------
-- The upsert engine: merge absorption, identity-key uniqueness, and
-- the fixed-point lemmas behind idempotence.
-- ---------------------------------------------------------------------

theorem mergeItem_self (it : Item) : mergeItem it it = it := by
  simp [mergeItem]

theorem mergeItem_absorb (x it : Item) : mergeItem (mergeItem x it) it = mergeItem x it := by
  unfold mergeItem
  by_cases h1 : it.title = [] <;> by_cases h2 : it.url = [] <;>
    by_cases h3 : it.description = [] <;> simp [h1, h2, h3]

theorem mergeItem_normUrl (x it : Item) (h : normUrl x.url = normUrl it.url) :
    normUrl (mergeItem x it).url = normUrl x.url := by
  unfold mergeItem
  by_cases h2 : it.url = [] <;> simp [h2, h]

/-- After an upsert the incoming identity key is present, and its item
    absorbs a repeated merge of the same incoming item. -/
theorem upsertItems_exists_match (items : List Item) (it : Item) :
    ∃ m ∈ upsertItems items it, normUrl m.url = normUrl it.url ∧ mergeItem m it = m := by
  induction items with
  | nil => exact ⟨it, by simp [upsertItems], rfl, mergeItem_self it⟩
  | cons x xs ih =>
    by_cases h : normUrl x.url = normUrl it.url
    · refine ⟨mergeItem x it, by simp [upsertItems, h], ?_, mergeItem_absorb x it⟩
      rw [mergeItem_normUrl x it h, h]
    · obtain ⟨m, hm, h1, h2⟩ := ih
      exact ⟨m, by simp [upsertItems, h, hm], h1, h2⟩

/-- An upsert whose first matching item is already fully merged is the
    identity on the item list. -/
theorem upsertItems_eq_self (items : List Item) (it : Item)
    (habs : ∀ x ∈ items, normUrl x.url = normUrl it.url → mergeItem x it = x)
    (hex : ∃ x ∈ items, normUrl x.url = normUrl it.url) :
    upsertItems items it = items := by
  induction items with
  | nil => simp at hex
  | cons x xs ih =>
    by_cases h : normUrl x.url = normUrl it.url
    · simp [upsertItems, h, habs x (by simp) h]
    · have hex' : ∃ y ∈ xs, normUrl y.url = normUrl it.url := by
        obtain ⟨y, hy, hy2⟩ := hex
        rcases List.mem_cons.mp hy with rfl | hy'
        · exact absurd hy2 h
        · exact ⟨y, hy', hy2⟩
      simp [upsertItems, h, ih (fun y hy hy2 => habs y (by simp [hy]) hy2) hex']

/-- Members of an upsert result either carry the incoming identity key
    or were already in the list. -/
theorem upsertItems_norms_subset (items : List Item) (it : Item) :
    ∀ y ∈ upsertItems items it, normUrl y.url = normUrl it.url ∨ y ∈ items := by
  induction items with
  | nil =>
    intro y hy
    simp [upsertItems] at hy
    subst hy
    exact Or.inl rfl
  | cons x xs ih =>
    intro y hy
    by_cases h : normUrl x.url = normUrl it.url
    · simp only [upsertItems, if_pos h, List.mem_cons] at hy
      rcases hy with rfl | hy
      · exact Or.inl (by rw [mergeItem_normUrl x it h, h])
      · exact Or.inr (by simp [hy])
    · simp only [upsertItems, if_neg h, List.mem_cons] at hy
      rcases hy with rfl | hy
      · exact Or.inr (by simp)
      · rcases ih y hy with h1 | h1
        · exact Or.inl h1
        · exact Or.inr (by simp [h1])

/-- The upsert preserves the identity-key uniqueness invariant. -/
theorem upsertItems_nodup (items : List Item) (it : Item)
    (h : (items.map (fun x => normUrl x.url)).Nodup) :
    ((upsertItems items it).map (fun x => normUrl x.url)).Nodup := by
  induction items with
  | nil => simp [upsertItems]
  | cons x xs ih =>
    simp only [List.map_cons, List.nodup_cons] at h
    obtain ⟨hx, hxs⟩ := h
    by_cases hm : normUrl x.url = normUrl it.url
    · simp only [upsertItems, if_pos hm, List.map_cons, List.nodup_cons]
      exact ⟨by rw [mergeItem_normUrl x it hm]; exact hx, hxs⟩
    · simp only [upsertItems, if_neg hm, List.map_cons, List.nodup_cons]
      refine ⟨?_, ih hxs⟩
      intro hmem
      rw [List.mem_map] at hmem
      obtain ⟨y, hy, hyx⟩ := hmem
      rcases upsertItems_norms_subset xs it y hy with h1 | h1
      · exact hm (by rw [← hyx, h1])
      · exact hx (List.mem_map.mpr ⟨y, h1, hyx⟩)

/-- Touching a group twice with the same item is the same as touching it
    once, under the identity-key uniqueness invariant. -/
theorem touchGroup_absorb (g : Group) (it : Item)
    (h : (g.items.map (fun x => normUrl x.url)).Nodup) :
    touchGroup (touchGroup g it) it = touchGroup g it := by
  unfold touchGroup
  dsimp only
  congr 1
  have hperm := List.perm_insertionSort itemLe (upsertItems g.items it)
  have hnodup : ((List.insertionSort itemLe (upsertItems g.items it)).map
      (fun x => normUrl x.url)).Nodup :=
    ((hperm.map _).nodup_iff).mpr (upsertItems_nodup g.items it h)
  obtain ⟨m, hm, hmnorm, hmabs⟩ := upsertItems_exists_match g.items it
  have hm' : m ∈ List.insertionSort itemLe (upsertItems g.items it) := hperm.mem_iff.mpr hm
  have heq : upsertItems (List.insertionSort itemLe (upsertItems g.items it)) it =
      List.insertionSort itemLe (upsertItems g.items it) := by
    apply upsertItems_eq_self
    · intro x hx hxn
      have hxm : x = m :=
        List.inj_on_of_nodup_map hnodup hx hm' (by rw [hxn, hmnorm])
      rw [hxm, hmabs]
    · exact ⟨m, hm', hmnorm⟩
  rw [heq]
  exact List.Sorted.insertionSort_eq (List.sorted_insertionSort itemLe _)

/-- The group update leaves a touched group carrying the target name
    that absorbs a repeated touch. -/
theorem updateGroups_exists_touched (gname : Str) (it : Item) (gs : List Group)
    (hwf : ∀ g ∈ gs, (g.items.map (fun x => normUrl x.url)).Nodup) :
    ∃ T ∈ updateGroups gname it gs,
      lowerStr T.name = lowerStr gname ∧ touchGroup T it = T := by
  induction gs with
  | nil =>
    exact ⟨touchGroup ⟨gname, []⟩ it, by simp [updateGroups], rfl,
      touchGroup_absorb _ it (by simp)⟩
  | cons g gs ih =>
    by_cases h : lowerStr g.name = lowerStr gname
    · exact ⟨touchGroup g it, by simp [updateGroups, h],
        by simpa [touchGroup] using h, touchGroup_absorb g it (hwf g (by simp))⟩
    · obtain ⟨T, hT, h1, h2⟩ := ih (fun g' hg' => hwf g' (by simp [hg']))
      exact ⟨T, by simp [updateGroups, h, hT], h1, h2⟩

/-- Members of a group update either carry the target name or were
    already in the list. -/
theorem updateGroups_names_subset (gname : Str) (it : Item) (gs : List Group) :
    ∀ T ∈ updateGroups gname it gs, lowerStr T.name = lowerStr gname ∨ T ∈ gs := by
  induction gs with
  | nil =>
    intro T hT
    simp [updateGroups] at hT
    subst hT
    exact Or.inl rfl
  | cons g gs ih =>
    intro T hT
    by_cases h : lowerStr g.name = lowerStr gname
    · simp only [updateGroups, if_pos h, List.mem_cons] at hT
      rcases hT with rfl | hT
      · exact Or.inl (by simpa [touchGroup] using h)
      · exact Or.inr (by simp [hT])
    · simp only [updateGroups, if_neg h, List.mem_cons] at hT
      rcases hT with rfl | hT
      · exact Or.inr (by simp)
      · rcases ih T hT with h1 | h1
        · exact Or.inl h1
        · exact Or.inr (by simp [h1])

/-- The group update preserves the name-uniqueness invariant. -/
theorem updateGroups_nodup (gname : Str) (it : Item) (gs : List Group)
    (h : (gs.map (fun g => lowerStr g.name)).Nodup) :
    ((updateGroups gname it gs).map (fun g => lowerStr g.name)).Nodup := by
  induction gs with
  | nil => simp [updateGroups]
  | cons g gs ih =>
    simp only [List.map_cons, List.nodup_cons] at h
    obtain ⟨hg, hgs⟩ := h
    by_cases hm : lowerStr g.name = lowerStr gname
    · simp only [updateGroups, if_pos hm, List.map_cons, List.nodup_cons]
      exact ⟨by simpa [touchGroup] using hg, hgs⟩
    · simp only [updateGroups, if_neg hm, List.map_cons, List.nodup_cons]
      refine ⟨?_, ih hgs⟩
      intro hmem
      rw [List.mem_map] at hmem
      obtain ⟨T, hT, hTg⟩ := hmem
      rcases updateGroups_names_subset gname it gs T hT with h1 | h1
      · exact hm (by rw [← hTg, h1])
      · exact hg (List.mem_map.mpr ⟨T, h1, hTg⟩)

/-- A group update whose first matching group already absorbs the touch
    is the identity on the group list. -/
theorem updateGroups_eq_self (gname : Str) (it : Item) (gs : List Group)
    (habs : ∀ T ∈ gs, lowerStr T.name = lowerStr gname → touchGroup T it = T)
    (hex : ∃ T ∈ gs, lowerStr T.name = lowerStr gname) :
    updateGroups gname it gs = gs := by
  induction gs with
  | nil => simp at hex
  | cons g gs ih =>
    by_cases h : lowerStr g.name = lowerStr gname
    · simp [updateGroups, h, habs g (by simp) h]
    · have hex' : ∃ T ∈ gs, lowerStr T.name = lowerStr gname := by
        obtain ⟨T, hT, hT2⟩ := hex
        rcases List.mem_cons.mp hT with rfl | hT'
        · exact absurd hT2 h
        · exact ⟨T, hT', hT2⟩
      simp [updateGroups, h, ih (fun T hT hT2 => habs T (by simp [hT]) hT2) hex']

/-- Members of a group update are old groups or freshly touched ones. -/
theorem updateGroups_members (gname : Str) (it : Item) (gs : List Group) :
    ∀ T ∈ updateGroups gname it gs, T ∈ gs ∨ ∃ g, T = touchGroup g it := by
  induction gs with
  | nil =>
    intro T hT
    simp [updateGroups] at hT
    exact Or.inr ⟨⟨gname, []⟩, hT⟩
  | cons g gs ih =>
    intro T hT
    by_cases h : lowerStr g.name = lowerStr gname
    · simp only [updateGroups, if_pos h, List.mem_cons] at hT
      rcases hT with rfl | hT
      · exact Or.inr ⟨g, rfl⟩
      · exact Or.inl (by simp [hT])
    · simp only [updateGroups, if_neg h, List.mem_cons] at hT
      rcases hT with rfl | hT
      · exact Or.inl (by simp)
      · rcases ih T hT with h1 | h1
        · exact Or.inl (by simp [h1])
        · exact Or.inr h1

/-- C1: on a document satisfying the data-model invariants of spec §3
    (unique case-folded group names; unique identity keys within each
    group), upserting the same item twice yields the document obtained
    by upserting it once. -/
theorem upsert_item_idempotent (d : CategoryDoc) (gn : Str) (it : Item) (hwf : DocWF d) :
    upsert_item (upsert_item d gn it) gn it = upsert_item d gn it := by
  obtain ⟨hnames, hitems⟩ := hwf
  unfold upsert_item
  dsimp only
  congr 1
  have hperm := List.perm_insertionSort groupLe
    (updateGroups (pyStrip (if gn = [] then generalStr else gn)) it d.groups)
  obtain ⟨T, hT, hTname, hTabs⟩ :=
    updateGroups_exists_touched (pyStrip (if gn = [] then generalStr else gn)) it d.groups hitems
  have hTin : T ∈ List.insertionSort groupLe
      (updateGroups (pyStrip (if gn = [] then generalStr else gn)) it d.groups) :=
    hperm.mem_iff.mpr hT
  have hnodup1 : ((List.insertionSort groupLe
      (updateGroups (pyStrip (if gn = [] then generalStr else gn)) it d.groups)).map
      (fun g => lowerStr g.name)).Nodup :=
    ((hperm.map _).nodup_iff).mpr
      (updateGroups_nodup (pyStrip (if gn = [] then generalStr else gn)) it d.groups hnames)
  have hupd : updateGroups (pyStrip (if gn = [] then generalStr else gn)) it
      (List.insertionSort groupLe
        (updateGroups (pyStrip (if gn = [] then generalStr else gn)) it d.groups)) =
      List.insertionSort groupLe
        (updateGroups (pyStrip (if gn = [] then generalStr else gn)) it d.groups) := by
    apply updateGroups_eq_self
    · intro T' hT' hT'name
      have hTT : T' = T :=
        List.inj_on_of_nodup_map hnodup1 hT' hTin (by rw [hT'name, hTname])
      rw [hTT]
      exact hTabs
    · exact ⟨T, hTin, hTname⟩
  rw [hupd]
  exact List.Sorted.insertionSort_eq (List.sorted_insertionSort groupLe _)

/-- C1 witness: idempotence at a concrete well-formed document. -/
theorem upsert_item_idempotent_witness :
    upsert_item (upsert_item ⟨"Tools".data, [⟨"General".data,
        [⟨"A".data, "https://a.example".data, []⟩]⟩]⟩ "General".data
        ⟨"B".data, "https://b.example".data, "d".data⟩) "General".data
        ⟨"B".data, "https://b.example".data, "d".data⟩ =
      upsert_item ⟨"Tools".data, [⟨"General".data,
        [⟨"A".data, "https://a.example".data, []⟩]⟩]⟩ "General".data
        ⟨"B".data, "https://b.example".data, "d".data⟩ :=
  upsert_item_idempotent _ _ _ ⟨by decide, by decide⟩

/-- Single-upsert part of the sort invariant: one upsert re-establishes
    sortedness of the group list and of every group's item list. -/
theorem upsert_item_sorted (d : CategoryDoc) (gn : Str) (it : Item)
    (hs : ∀ g ∈ d.groups, List.Sorted itemLe g.items) :
    List.Sorted groupLe (upsert_item d gn it).groups ∧
      ∀ g ∈ (upsert_item d gn it).groups, List.Sorted itemLe g.items := by
  unfold upsert_item
  dsimp only
  refine ⟨List.sorted_insertionSort groupLe _, ?_⟩
  intro g hg
  have hg' : g ∈ updateGroups (pyStrip (if gn = [] then generalStr else gn)) it d.groups :=
    (List.perm_insertionSort groupLe _).mem_iff.mp hg
  rcases updateGroups_members _ it d.groups g hg' with h | ⟨g', rfl⟩
  · exact hs g h
  · exact List.sorted_insertionSort itemLe _

/-- Folding upserts preserves the sort invariant. -/
theorem foldl_upsert_sorted (ops : List (Str × Item)) (d : CategoryDoc)
    (h1 : List.Sorted groupLe d.groups)
    (h2 : ∀ g ∈ d.groups, List.Sorted itemLe g.items) :
    List.Sorted groupLe (ops.foldl (fun d p => upsert_item d p.1 p.2) d).groups ∧
      ∀ g ∈ (ops.foldl (fun d p => upsert_item d p.1 p.2) d).groups,
        List.Sorted itemLe g.items := by
  induction ops generalizing d with
  | nil => exact ⟨h1, h2⟩
  | cons p ps ih =>
    simp only [List.foldl_cons]
    obtain ⟨g1, g2⟩ := upsert_item_sorted d p.1 p.2 h2
    exact ih _ g1 g2

/-- C3: any sequence of upserts from a document with empty groups
    leaves the group list sorted by lowercased name and every group's
    items sorted by lowercased title. -/
theorem applyOps_sort_invariant (cat : Str) (ops : List (Str × Item)) :
    List.Sorted groupLe (applyOps cat ops).groups ∧
      ∀ g ∈ (applyOps cat ops).groups, List.Sorted itemLe g.items :=
  foldl_upsert_sorted ops ⟨cat, []⟩ (by simp) (by simp)

/-- C10: an item whose identity key exists only in a different group is
    appended to the target group, leaving the other group unchanged —
    two items with the same normalized URL may live in different
    groups of one document. -/
theorem upsert_item_cross_group (cat nameA : Str) (itA : Item) (nameB : Str) (itB : Item)
    (_hurl : normUrl itA.url = normUrl itB.url)
    (hB0 : nameB ≠ []) (hB1 : pyStrip nameB = nameB)
    (hdiff : lowerStr nameA ≠ lowerStr nameB) :
    ⟨nameA, [itA]⟩ ∈ (upsert_item ⟨cat, [⟨nameA, [itA]⟩]⟩ nameB itB).groups ∧
      ⟨nameB, [itB]⟩ ∈ (upsert_item ⟨cat, [⟨nameA, [itA]⟩]⟩ nameB itB).groups ∧
      (upsert_item ⟨cat, [⟨nameA, [itA]⟩]⟩ nameB itB).groups.length = 2 := by
  unfold upsert_item
  dsimp only
  rw [if_neg hB0, hB1]
  have hupd : updateGroups nameB itB [⟨nameA, [itA]⟩] =
      [⟨nameA, [itA]⟩, ⟨nameB, [itB]⟩] := by
    simp [updateGroups, hdiff, touchGroup, upsertItems, List.insertionSort,
      List.orderedInsert]
  rw [hupd]
  have hperm := List.perm_insertionSort groupLe [⟨nameA, [itA]⟩, ⟨nameB, [itB]⟩]
  exact ⟨hperm.mem_iff.mpr (by simp), hperm.mem_iff.mpr (by simp),
    by rw [hperm.length_eq]; rfl⟩

/-- C10 witness: two items with the same normalized URL in two groups
    of one concrete document. -/
theorem upsert_item_cross_group_witness :
    ⟨"Tools".data, [⟨"a".data, "https://ex.com/a".data, "d".data⟩]⟩ ∈
      (upsert_item ⟨"Cat".data, [⟨"Tools".data,
          [⟨"a".data, "https://ex.com/a".data, "d".data⟩]⟩]⟩ "Other".data
        ⟨"b".data, "https://ex.com/a/".data, "e".data⟩).groups ∧
    ⟨"Other".data, [⟨"b".data, "https://ex.com/a/".data, "e".data⟩]⟩ ∈
      (upsert_item ⟨"Cat".data, [⟨"Tools".data,
          [⟨"a".data, "https://ex.com/a".data, "d".data⟩]⟩]⟩ "Other".data
        ⟨"b".data, "https://ex.com/a/".data, "e".data⟩).groups ∧
    (upsert_item ⟨"Cat".data, [⟨"Tools".data,
        [⟨"a".data, "https://ex.com/a".data, "d".data⟩]⟩]⟩ "Other".data
      ⟨"b".data, "https://ex.com/a/".data, "e".data⟩).groups.length = 2 :=
  upsert_item_cross_group "Cat".data "Tools".data
    ⟨"a".data, "https://ex.com/a".data, "d".data⟩ "Other".data
    ⟨"b".data, "https://ex.com/a/".data, "e".data⟩
    (by decide) (by decide) (by decide) (by decide)

-- ---------------------------------------------------------------------
-- Substring occurrences: a characterization of `findSub`.
-- ---------------------------------------------------------------------

theorem isPrefixOf_eq_true_iff (a b : Str) : a.isPrefixOf b = true ↔ a <+: b := by
  induction a generalizing b with
  | nil => simp [List.isPrefixOf]
  | cons x xs ih =>
    cases b with
    | nil => simp [List.isPrefixOf, List.prefix_nil]
    | cons y ys => simp [List.isPrefixOf, List.cons_prefix_cons, ih, And.comm]

theorem preAppend (a b : Str) : a <+: a ++ b := ⟨b, rfl⟩

theorem takeIsPre (n : Nat) (l : Str) : l.take n <+: l := ⟨l.drop n, List.take_append_drop n l⟩

theorem prefixOfAppendLeft {a b c : Str} (h : a <+: b ++ c) (hlen : a.length ≤ b.length) :
    a <+: b := by
  have h1 : a = (b ++ c).take a.length := List.prefix_iff_eq_take.mp h
  rw [List.take_append_eq_append_take, show a.length - b.length = 0 by omega] at h1
  simp only [List.take_zero, List.append_nil] at h1
  exact List.prefix_iff_eq_take.mpr h1

theorem prefixOfTake {a b : Str} {n : Nat} (h : a <+: b.take n) : a <+: b :=
  h.trans (takeIsPre n b)

theorem prefixTakeOf {a b : Str} {n : Nat} (h : a <+: b) (hn : a.length ≤ n) :
    a <+: b.take n := by
  have h1 : a = b.take a.length := List.prefix_iff_eq_take.mp h
  rw [List.prefix_iff_eq_take, List.take_take, show min a.length n = a.length by omega]
  exact h1

theorem dropPrefixMono {a b : Str} (n : Nat) (h : a <+: b) : a.drop n <+: b.drop n := by
  obtain ⟨t, rfl⟩ := h
  rw [List.drop_append_eq_append_drop]
  exact ⟨_, rfl⟩

theorem occursAt_succ (pat : Str) (c : Char) (t : Str) (j : Nat) :
    occursAt pat (c :: t) (j + 1) ↔ occursAt pat t j := by
  simp [occursAt, List.drop_succ_cons]

theorem findSub_eq_none_iff (s pat : Str) :
    findSub s pat = none ↔ ∀ j, ¬ occursAt pat s j := by
  induction s with
  | nil =>
    unfold findSub
    by_cases hp : pat.isPrefixOf ([] : Str)
    · rw [if_pos hp]
      constructor
      · intro h
        exact absurd h (by simp)
      · intro h
        exact absurd (show occursAt pat ([] : Str) 0 by
          simpa [occursAt] using (isPrefixOf_eq_true_iff _ _).mp hp) (h 0)
    · rw [if_neg hp]
      constructor
      · intro _ j hocc
        have hnil : pat = [] := List.prefix_nil.mp (by simpa [occursAt] using hocc)
        subst hnil
        exact hp rfl
      · intro _
        rfl
  | cons c t ih =>
    unfold findSub
    by_cases hp : pat.isPrefixOf (c :: t)
    · rw [if_pos hp]
      constructor
      · intro h
        exact absurd h (by simp)
      · intro h
        exact absurd (show occursAt pat (c :: t) 0 by
          simpa [occursAt] using (isPrefixOf_eq_true_iff _ _).mp hp) (h 0)
    · rw [if_neg hp]
      have hmatch : (match findSub t pat with
          | some n => some (n + 1)
          | none => none) = (none : Option Nat) ↔ findSub t pat = none := by
        cases findSub t pat <;> simp
      rw [hmatch, ih]
      constructor
      · intro h j hocc
        cases j with
        | zero =>
          exact hp ((isPrefixOf_eq_true_iff _ _).mpr (by simpa [occursAt] using hocc))
        | succ k => exact h k ((occursAt_succ pat c t k).mp hocc)
      · intro h j hocc
        exact h (j + 1) ((occursAt_succ pat c t j).mpr hocc)

theorem findSub_eq_some_iff (s pat : Str) : ∀ i, findSub s pat = some i ↔
    (occursAt pat s i ∧ ∀ j < i, ¬ occursAt pat s j) := by
  induction s with
  | nil =>
    intro i
    unfold findSub
    by_cases hp : pat.isPrefixOf ([] : Str)
    · rw [if_pos hp]
      have h0 : occursAt pat ([] : Str) 0 := by
        simpa [occursAt] using (isPrefixOf_eq_true_iff _ _).mp hp
      constructor
      · intro h
        injection h with h
        subst h
        exact ⟨h0, fun j hj => absurd hj (Nat.not_lt_zero j)⟩
      · rintro ⟨_, h2⟩
        cases i with
        | zero => rfl
        | succ k => exact absurd h0 (h2 0 (Nat.succ_pos k))
    · rw [if_neg hp]
      constructor
      · intro h
        exact absurd h (by simp)
      · rintro ⟨h1, _⟩
        have hnil : pat = [] := List.prefix_nil.mp (by simpa [occursAt] using h1)
        subst hnil
        exact absurd rfl hp
  | cons c t ih =>
    intro i
    unfold findSub
    by_cases hp : pat.isPrefixOf (c :: t)
    · rw [if_pos hp]
      have h0 : occursAt pat (c :: t) 0 := by
        simpa [occursAt] using (isPrefixOf_eq_true_iff _ _).mp hp
      constructor
      · intro h
        injection h with h
        subst h
        exact ⟨h0, fun j hj => absurd hj (Nat.not_lt_zero j)⟩
      · rintro ⟨_, h2⟩
        cases i with
        | zero => rfl
        | succ k => exact absurd h0 (h2 0 (Nat.succ_pos k))
    · rw [if_neg hp]
      dsimp only
      have hp0 : ¬ occursAt pat (c :: t) 0 := fun hocc =>
        hp ((isPrefixOf_eq_true_iff _ _).mpr (by simpa [occursAt] using hocc))
      cases hfs : findSub t pat with
      | none =>
        dsimp only
        constructor
        · intro h
          exact absurd h (by simp)
        · rintro ⟨h1, _⟩
          exfalso
          cases i with
          | zero => exact hp0 h1
          | succ k =>
            exact (findSub_eq_none_iff t pat).mp hfs k ((occursAt_succ pat c t k).mp h1)
      | some n =>
        dsimp only
        obtain ⟨hn1, hn2⟩ := (ih n).mp hfs
        constructor
        · intro h
          injection h with h
          subst h
          refine ⟨(occursAt_succ pat c t n).mpr hn1, ?_⟩
          intro j hj
          cases j with
          | zero => exact hp0
          | succ k =>
            exact fun hocc => hn2 k (by omega) ((occursAt_succ pat c t k).mp hocc)
        · rintro ⟨h1, h2⟩
          cases i with
          | zero => exact absurd h1 hp0
          | succ k =>
            have hk : occursAt pat t k := (occursAt_succ pat c t k).mp h1
            have h3 : ¬ n < k := fun hlt =>
              (h2 (n + 1) (by omega)) ((occursAt_succ pat c t n).mpr hn1)
            have h4 : ¬ k < n := fun hlt => hn2 k hlt hk
            have hkn : k = n := by omega
            subst hkn
            rfl

theorem occursAt_getElem (pat s : Str) {i : Nat} (h : occursAt pat s i) (k : Nat)
    (hk : k < pat.length) : s[i + k]? = pat[k]? := by
  obtain ⟨t, ht⟩ := h
  have h1 : (s.drop i)[k]? = pat[k]? := by
    rw [← ht, List.getElem?_append, if_pos hk]
  rw [← List.getElem?_drop]
  exact h1

theorem occursAt_cover_mem {pat A B : Str} {x : Char} {j : Nat}
    (h : occursAt pat (A ++ x :: B) j) (h1 : j ≤ A.length) (h2 : A.length < j + pat.length) :
    x ∈ pat := by
  have hk : A.length - j < pat.length := by omega
  have hx := occursAt_getElem pat (A ++ x :: B) h (A.length - j) hk
  rw [show j + (A.length - j) = A.length by omega] at hx
  have hxa : (A ++ x :: B)[A.length]? = some x := by
    rw [List.getElem?_append, if_neg (by omega)]
    simp
  rw [hxa] at hx
  obtain ⟨hlt, hgt⟩ := List.getElem?_eq_some.mp hx.symm
  exact hgt ▸ List.getElem_mem hlt

theorem occursAt_append_cons_split {pat A B : Str} {x : Char} {j : Nat}
    (h : occursAt pat (A ++ x :: B) j) (hx : x ∉ pat) :
    (occursAt pat A j ∧ j + pat.length ≤ A.length) ∨
      (occursAt pat B (j - A.length - 1) ∧ A.length + 1 ≤ j) := by
  by_cases hc1 : j + pat.length ≤ A.length
  · left
    refine ⟨?_, hc1⟩
    have hdrop : (A ++ x :: B).drop j = A.drop j ++ x :: B := by
      rw [List.drop_append_eq_append_drop, show j - A.length = 0 by omega, List.drop_zero]
    rw [occursAt, hdrop] at h
    exact prefixOfAppendLeft h (by rw [List.length_drop]; omega)
  · by_cases hc2 : A.length + 1 ≤ j
    · right
      refine ⟨?_, hc2⟩
      have hdrop : (A ++ x :: B).drop j = B.drop (j - A.length - 1) := by
        rw [List.drop_append_eq_append_drop, List.drop_eq_nil_of_le (by omega),
          show j - A.length = (j - A.length - 1) + 1 by omega, List.drop_succ_cons]
        simp
      rw [occursAt, hdrop] at h
      exact h
    · exact absurd (occursAt_cover_mem h (by omega) (by omega)) hx

theorem splitlines_cons (c : Char) (r : Str) :
    splitlines (c :: r) =
      if c = '\n' then [] :: splitlines r
      else
        match splitlines r with
        | [] => [[c]]
        | l :: ls => (c :: l) :: ls := rfl

theorem splitlines_ne_nil {s : Str} (h : s ≠ []) : splitlines s ≠ [] := by
  cases s with
  | nil => exact absurd rfl h
  | cons c t =>
    rw [splitlines_cons]
    by_cases hc : c = '\n'
    · simp [hc]
    · rw [if_neg hc]
      cases splitlines t <;> simp

theorem splitlines_append_line (P Q : Str) :
    splitlines (P ++ '\n' :: Q) = splitlines (P ++ ['\n']) ++ splitlines Q := by
  induction P with
  | nil => simp [splitlines_cons, splitlines]
  | cons c P ih =>
    rw [List.cons_append, List.cons_append, splitlines_cons, splitlines_cons]
    by_cases hc : c = '\n'
    · rw [if_pos hc, if_pos hc, ih]
      simp
    · rw [if_neg hc, if_neg hc, ih]
      rcases hsp : splitlines (P ++ ['\n']) with _ | ⟨l, ls⟩
      · exact absurd hsp (splitlines_ne_nil (by simp))
      · simp

theorem splitlines_single (R : Str) (h : '\n' ∉ R) : splitlines (R ++ ['\n']) = [R] := by
  induction R with
  | nil => simp [splitlines_cons, splitlines]
  | cons c R ih =>
    have hc : c ≠ '\n' := fun hh => h (by simp [hh])
    have hR : '\n' ∉ R := fun hh => h (by simp [hh])
    rw [List.cons_append, splitlines_cons, if_neg hc, ih hR]

theorem dropWhileIdem (p : Char → Bool) (l : Str) :
    List.dropWhile p (List.dropWhile p l) = List.dropWhile p l := by
  induction l with
  | nil => rfl
  | cons c t ih =>
    by_cases hp : p c
    · simp [List.dropWhile_cons, hp, ih]
    · simp [List.dropWhile_cons, hp]

theorem pyRstrip_isPre (s : Str) : pyRstrip s <+: s := by
  obtain ⟨t, ht⟩ := List.dropWhile_suffix (l := s.reverse) pyIsSpaceChar
  exact ⟨t.reverse, by rw [pyRstrip, ← List.reverse_append, ht, List.reverse_reverse]⟩

theorem pyRstrip_pyRstrip (s : Str) : pyRstrip (pyRstrip s) = pyRstrip s := by
  unfold pyRstrip
  rw [List.reverse_reverse, dropWhileIdem]

theorem pyStrip_pyRstrip (s : Str) : pyStrip (pyRstrip s) = pyStrip s := by
  unfold pyStrip
  rw [pyRstrip_pyRstrip]

theorem occursAt_slice {pat whole : Str} {k m j : Nat}
    (h : occursAt pat ((whole.drop k).take m) j) (hpat : pat ≠ []) :
    occursAt pat whole (k + j) ∧ k + j + pat.length ≤ k + m := by
  rw [occursAt, List.drop_take, List.drop_drop] at h
  refine ⟨prefixOfTake h, ?_⟩
  have hlen := h.length_le
  rw [List.length_take] at hlen
  have hmj : pat.length ≤ m - j := le_trans hlen (min_le_left _ _)
  have hp1 : 1 ≤ pat.length := by
    cases pat with
    | nil => exact absurd rfl hpat
    | cons _ _ => simp
  omega

-- ---------------------------------------------------------------------
-- Evaluation helpers for `insert_between` and the structure of the
-- region after one insertion.
-- ---------------------------------------------------------------------

theorem insert_between_hit (markStart markEnd whole newLi : Str) (dedupe : Option Str)
    (s0 e0 : Nat)
    (hs : findSub whole markStart = some s0) (he : findSub whole markEnd = some e0)
    (hord : ¬ e0 < s0)
    (hd : dedupeHit dedupe ((whole.drop (s0 + markStart.length)).take
      (e0 - (s0 + markStart.length))) = true) :
    insert_between markStart markEnd whole newLi dedupe = Except.ok whole := by
  unfold insert_between
  rw [hs, he]
  dsimp only
  rw [if_neg hord, hd]
  simp

theorem insert_between_insert (markStart markEnd whole newLi : Str) (dedupe : Option Str)
    (s0 e0 : Nat)
    (hs : findSub whole markStart = some s0) (he : findSub whole markEnd = some e0)
    (hord : ¬ e0 < s0)
    (hd : dedupeHit dedupe ((whole.drop (s0 + markStart.length)).take
      (e0 - (s0 + markStart.length))) = false) :
    insert_between markStart markEnd whole newLi dedupe =
      Except.ok (whole.take (s0 + markStart.length) ++
        '\n' :: (ensureNl ((whole.drop (s0 + markStart.length)).take
            (e0 - (s0 + markStart.length))) ++ pyRstrip newLi ++ ['\n']) ++
        whole.drop e0) := by
  unfold insert_between
  rw [hs, he]
  dsimp only
  rw [if_neg hord, hd]
  simp

theorem ensureNl_shape (mid : Str) :
    ensureNl mid = [] ∨ ∃ M0, M0 <+: mid ∧ ensureNl mid = M0 ++ ['\n'] := by
  unfold ensureNl
  by_cases h : mid ≠ [] ∧ mid.getLast? ≠ some '\n'
  · rw [if_pos h]
    exact Or.inr ⟨mid, ⟨[], List.append_nil mid⟩, rfl⟩
  · rw [if_neg h]
    push_neg at h
    by_cases hm : mid = []
    · exact Or.inl hm
    · obtain ⟨ys, hys⟩ := List.getLast?_eq_some_iff.mp (h hm)
      exact Or.inr ⟨ys, ⟨['\n'], hys.symm⟩, hys⟩

/-- The start marker of the rebuilt index content is still first found
    at `s0`: the whole prefix up to and including the marker is kept. -/
theorem findSub_result_start (whole Z : Str) (s0 e0 : Nat)
    (hs : findSub whole CAT_STARTs = some s0)
    (hord : s0 + CAT_STARTs.length ≤ e0) (hel : e0 ≤ whole.length) :
    findSub (whole.take (s0 + CAT_STARTs.length) ++ Z) CAT_STARTs = some s0 := by
  obtain ⟨hsOcc, hsMin⟩ := (findSub_eq_some_iff whole CAT_STARTs s0).mp hs
  have hTlen : (whole.take (s0 + CAT_STARTs.length)).length = s0 + CAT_STARTs.length := by
    rw [List.length_take]
    exact min_eq_left (by omega)
  apply (findSub_eq_some_iff _ _ s0).mpr
  constructor
  · unfold occursAt
    rw [List.drop_append_eq_append_drop,
      show s0 - (whole.take (s0 + CAT_STARTs.length)).length = 0 by rw [hTlen]; omega,
      List.drop_zero]
    have hTdrop : (whole.take (s0 + CAT_STARTs.length)).drop s0 =
        (whole.drop s0).take CAT_STARTs.length := by
      rw [List.drop_take, show s0 + CAT_STARTs.length - s0 = CAT_STARTs.length by omega]
    rw [hTdrop]
    exact (prefixTakeOf hsOcc (le_refl _)).trans (preAppend _ _)
  · intro j hj hocc
    unfold occursAt at hocc
    rw [List.drop_append_eq_append_drop,
      show j - (whole.take (s0 + CAT_STARTs.length)).length = 0 by rw [hTlen]; omega,
      List.drop_zero] at hocc
    have hfit : CAT_STARTs.length ≤ ((whole.take (s0 + CAT_STARTs.length)).drop j).length := by
      rw [List.length_drop, hTlen]
      omega
    have h1 := prefixOfAppendLeft hocc hfit
    rw [List.drop_take] at h1
    exact hsMin j hj (prefixOfTake h1)

/-- The end marker of the rebuilt index content is first found exactly
    where the kept tail begins: no occurrence was created earlier. -/
theorem findSub_result_end (whole M R after2 : Str) (s0 e0 : Nat)
    (he : findSub whole CAT_ENDs = some e0)
    (hord : s0 + CAT_STARTs.length ≤ e0)
    (hel : e0 + CAT_ENDs.length ≤ whole.length)
    (hM : M = [] ∨ ∃ M0, M0 <+: (whole.drop (s0 + CAT_STARTs.length)).take
        (e0 - (s0 + CAT_STARTs.length)) ∧ M = M0 ++ ['\n'])
    (hR : ∀ j, ¬ occursAt CAT_ENDs R j)
    (hafter : after2 = whole.drop e0) :
    findSub (whole.take (s0 + CAT_STARTs.length) ++ '\n' :: (M ++ R ++ ['\n']) ++ after2)
        CAT_ENDs =
      some (s0 + CAT_STARTs.length + 1 + M.length + R.length + 1) := by
  subst hafter
  obtain ⟨heOcc, heMin⟩ := (findSub_eq_some_iff whole CAT_ENDs e0).mp he
  have hMEpos : 0 < CAT_ENDs.length := by decide
  have hMEnl : '\n' ∉ CAT_ENDs := by decide
  have hMEne : CAT_ENDs ≠ [] := by decide
  have hTlen : (whole.take (s0 + CAT_STARTs.length)).length = s0 + CAT_STARTs.length := by
    rw [List.length_take]
    exact min_eq_left (by omega)
  apply (findSub_eq_some_iff _ _ _).mpr
  constructor
  · unfold occursAt
    have hassoc : whole.take (s0 + CAT_STARTs.length) ++ '\n' :: (M ++ R ++ ['\n']) ++
        whole.drop e0 =
        (whole.take (s0 + CAT_STARTs.length) ++ '\n' :: (M ++ R ++ ['\n'])) ++
          whole.drop e0 := by
      simp [List.append_assoc]
    rw [hassoc]
    have hlen2 : (whole.take (s0 + CAT_STARTs.length) ++ '\n' :: (M ++ R ++ ['\n'])).length =
        s0 + CAT_STARTs.length + 1 + M.length + R.length + 1 := by
      simp [hTlen]
      omega
    rw [show s0 + CAT_STARTs.length + 1 + M.length + R.length + 1 =
        (whole.take (s0 + CAT_STARTs.length) ++ '\n' :: (M ++ R ++ ['\n'])).length
        from hlen2.symm, List.drop_left]
    exact heOcc
  · intro j hj hocc
    have hsplit1 : whole.take (s0 + CAT_STARTs.length) ++ '\n' :: (M ++ R ++ ['\n']) ++
        whole.drop e0 =
        whole.take (s0 + CAT_STARTs.length) ++ '\n' :: ((M ++ R) ++ '\n' :: whole.drop e0) := by
      simp [List.append_assoc]
    rw [hsplit1] at hocc
    rcases occursAt_append_cons_split hocc hMEnl with ⟨hA, hAle⟩ | ⟨hB, hBge⟩
    · unfold occursAt at hA
      rw [List.drop_take] at hA
      refine heMin j ?_ (prefixOfTake hA)
      rw [hTlen] at hAle
      omega
    · rcases occursAt_append_cons_split hB hMEnl with ⟨hMR, hMRle⟩ | ⟨hAfter, hAfterGe⟩
      · rcases hM with rfl | ⟨M0, hM0pre, rfl⟩
        · rw [List.nil_append] at hMR
          exact hR _ hMR
        · have hM0R : (M0 ++ ['\n']) ++ R = M0 ++ '\n' :: R := by simp
          rw [hM0R] at hMR
          rcases occursAt_append_cons_split hMR hMEnl with ⟨hM0occ, _⟩ | ⟨hRocc, _⟩
          · unfold occursAt at hM0occ
            have hmidocc : occursAt CAT_ENDs ((whole.drop (s0 + CAT_STARTs.length)).take
                (e0 - (s0 + CAT_STARTs.length))) _ :=
              hM0occ.trans (dropPrefixMono _ hM0pre)
            obtain ⟨hoccW, hleW⟩ := occursAt_slice hmidocc hMEne
            exact heMin _ (by omega) hoccW
          · exact hR _ hRocc
      · exfalso
        have hMRlen : (M ++ R).length = M.length + R.length := by simp
        rw [hTlen] at hBge
        rw [hMRlen, hTlen] at hAfterGe
        omega

/-- A region of the shape `P ++ '\n' :: (pyRstrip newLi ++ '\n')` makes
    the dedupe test for `newLi` succeed: its right-stripped line is among
    the region's non-blank lines. -/
theorem dedupeHit_inserted (newLi P : Str) (hne : pyStrip newLi ≠ [])
    (hRnl : '\n' ∉ pyRstrip newLi) :
    dedupeHit (some newLi) (P ++ '\n' :: (pyRstrip newLi ++ ['\n'])) = true := by
  unfold dedupeHit
  dsimp only
  rw [if_neg (show ¬ newLi = [] from fun h => hne (by rw [h]; rfl))]
  rw [decide_eq_true_eq]
  rw [splitlines_append_line, splitlines_single _ hRnl]
  rw [List.filter_append, List.map_append]
  apply List.mem_append_right
  have h1 : pyStrip (pyRstrip newLi) = pyStrip newLi := pyStrip_pyRstrip newLi
  have h2 : (pyStrip (pyRstrip newLi)).isEmpty = false := by
    rw [h1]
    cases hc : pyStrip newLi with
    | nil => exact absurd hc hne
    | cons _ _ => rfl
  simp only [List.filter_cons, h2, Bool.not_false, if_pos trivial, List.map_cons,
    List.map_nil, List.mem_singleton]
  rw [h1]
  exact List.mem_cons_self _ _

/-- Applying `insert_between` to a region that already ends with the
    inserted line of `newLi` is the identity (the dedupe test fires). -/
theorem insert_between_second_call (whole newLi M : Str) (s0 e0 : Nat)
    (hs : findSub whole CAT_STARTs = some s0)
    (he : findSub whole CAT_ENDs = some e0)
    (hord : s0 + CAT_STARTs.length ≤ e0)
    (hel : e0 + CAT_ENDs.length ≤ whole.length)
    (hM : M = [] ∨ ∃ M0, M0 <+: (whole.drop (s0 + CAT_STARTs.length)).take
        (e0 - (s0 + CAT_STARTs.length)) ∧ M = M0 ++ ['\n'])
    (hne : pyStrip newLi ≠ [])
    (hRnl : '\n' ∉ pyRstrip newLi)
    (hRnoME : ∀ j, ¬ occursAt CAT_ENDs (pyRstrip newLi) j) :
    insert_between CAT_STARTs CAT_ENDs
        (whole.take (s0 + CAT_STARTs.length) ++
          '\n' :: (M ++ pyRstrip newLi ++ ['\n']) ++ whole.drop e0) newLi (some newLi) =
      Except.ok (whole.take (s0 + CAT_STARTs.length) ++
        '\n' :: (M ++ pyRstrip newLi ++ ['\n']) ++ whole.drop e0) := by
  have hTlen : (whole.take (s0 + CAT_STARTs.length)).length = s0 + CAT_STARTs.length := by
    rw [List.length_take]
    exact min_eq_left (by omega)
  have hs1 := findSub_result_start whole
    (('\n' :: (M ++ pyRstrip newLi ++ ['\n'])) ++ whole.drop e0) s0 e0 hs hord (by omega)
  rw [← List.append_assoc] at hs1
  have he1 := findSub_result_end whole M (pyRstrip newLi) (whole.drop e0) s0 e0 he hord hel
    hM hRnoME rfl
  apply insert_between_hit _ _ _ _ _ s0 _ hs1 he1 (by omega)
  have hdropw1 : (whole.take (s0 + CAT_STARTs.length) ++
      '\n' :: (M ++ pyRstrip newLi ++ ['\n']) ++ whole.drop e0).drop
        (s0 + CAT_STARTs.length) =
      ('\n' :: (M ++ pyRstrip newLi ++ ['\n'])) ++ whole.drop e0 := by
    rw [List.append_assoc, List.drop_append_eq_append_drop,
      List.drop_eq_nil_of_le (le_of_eq hTlen),
      show s0 + CAT_STARTs.length - (whole.take (s0 + CAT_STARTs.length)).length = 0
        by rw [hTlen]; omega,
      List.drop_zero, List.nil_append]
  rw [hdropw1]
  have hlen3 : s0 + CAT_STARTs.length + 1 + M.length + (pyRstrip newLi).length + 1 -
      (s0 + CAT_STARTs.length) = ('\n' :: (M ++ pyRstrip newLi ++ ['\n'])).length := by
    simp
    omega
  rw [hlen3, List.take_left]
  rcases hM with rfl | ⟨M0, _, rfl⟩
  · have hsh : ('\n' :: (([] : Str) ++ pyRstrip newLi ++ ['\n'])) =
        ([] : Str) ++ '\n' :: (pyRstrip newLi ++ ['\n']) := by simp
    rw [hsh]
    exact dedupeHit_inserted newLi [] hne hRnl
  · have hsh : ('\n' :: ((M0 ++ ['\n']) ++ pyRstrip newLi ++ ['\n'])) =
        ('\n' :: M0) ++ '\n' :: (pyRstrip newLi ++ ['\n']) := by simp
    rw [hsh]
    exact dedupeHit_inserted newLi ('\n' :: M0) hne hRnl

/-- C7: with both markers present in order, `insert_between` keeps the
    content before the start marker and from the end marker onward
    byte-identical, and — for a non-blank single-line insertion deduped
    by itself, not containing the end marker — applying it twice yields
    the same result as applying it once. -/
theorem insert_between_purity_and_dedupe_idempotent
    (whole newLi : Str) (s0 e0 : Nat)
    (hs : findSub whole CAT_STARTs = some s0)
    (he : findSub whole CAT_ENDs = some e0)
    (hord : s0 + CAT_STARTs.length ≤ e0)
    (hnl : newLi.all (fun c => !(isLineBreakChar c)) = true)
    (hne : pyStrip newLi ≠ [])
    (hnoe : findSub newLi CAT_ENDs = none) :
    ∃ w1 midNew,
      insert_between CAT_STARTs CAT_ENDs whole newLi (some newLi) = Except.ok w1 ∧
      w1 = whole.take (s0 + CAT_STARTs.length) ++ midNew ++ whole.drop e0 ∧
      insert_between CAT_STARTs CAT_ENDs w1 newLi (some newLi) = Except.ok w1 := by
  have hMEpos : 0 < CAT_ENDs.length := by decide
  obtain ⟨heOcc, _⟩ := (findSub_eq_some_iff whole CAT_ENDs e0).mp he
  have hel : e0 + CAT_ENDs.length ≤ whole.length := by
    have h1 := heOcc.length_le
    rw [List.length_drop] at h1
    omega
  have hRpre := pyRstrip_isPre newLi
  have hRnl : '\n' ∉ pyRstrip newLi := by
    intro hmem
    obtain ⟨t, ht⟩ := hRpre
    have hmem2 : ('\n' : Char) ∈ newLi := by
      rw [← ht]
      exact List.mem_append_left _ hmem
    have hb := List.all_eq_true.mp hnl _ hmem2
    simp [isLineBreakChar] at hb
  have hRnoME : ∀ j, ¬ occursAt CAT_ENDs (pyRstrip newLi) j := by
    intro j hocc
    unfold occursAt at hocc
    exact (findSub_eq_none_iff newLi CAT_ENDs).mp hnoe j
      (hocc.trans (dropPrefixMono j (pyRstrip_isPre newLi)))
  by_cases hd : dedupeHit (some newLi)
      ((whole.drop (s0 + CAT_STARTs.length)).take (e0 - (s0 + CAT_STARTs.length))) = true
  · refine ⟨whole, (whole.drop (s0 + CAT_STARTs.length)).take (e0 - (s0 + CAT_STARTs.length)),
      insert_between_hit _ _ _ _ _ s0 e0 hs he (by omega) hd, ?_,
      insert_between_hit _ _ _ _ _ s0 e0 hs he (by omega) hd⟩
    have hsplit : (whole.drop (s0 + CAT_STARTs.length)).take (e0 - (s0 + CAT_STARTs.length)) ++
        whole.drop e0 = whole.drop (s0 + CAT_STARTs.length) := by
      conv_rhs => rw [← List.take_append_drop (e0 - (s0 + CAT_STARTs.length))
        (whole.drop (s0 + CAT_STARTs.length))]
      rw [List.drop_drop,
        show s0 + CAT_STARTs.length + (e0 - (s0 + CAT_STARTs.length)) = e0 by omega]
    rw [List.append_assoc, hsplit, List.take_append_drop]
  · have hd' : dedupeHit (some newLi)
        ((whole.drop (s0 + CAT_STARTs.length)).take (e0 - (s0 + CAT_STARTs.length))) = false := by
      revert hd
      cases dedupeHit (some newLi) ((whole.drop (s0 + CAT_STARTs.length)).take
        (e0 - (s0 + CAT_STARTs.length))) <;> simp
    refine ⟨_, '\n' :: (ensureNl ((whole.drop (s0 + CAT_STARTs.length)).take
        (e0 - (s0 + CAT_STARTs.length))) ++ pyRstrip newLi ++ ['\n']),
      insert_between_insert CAT_STARTs CAT_ENDs whole newLi (some newLi) s0 e0 hs he
        (by omega) hd', rfl, ?_⟩
    exact insert_between_second_call whole newLi
      (ensureNl ((whole.drop (s0 + CAT_STARTs.length)).take (e0 - (s0 + CAT_STARTs.length))))
      s0 e0 hs he hord hel (ensureNl_shape _) hne hRnl hRnoME

/-- C7 witness: a concrete region, insertion, and the unchanged second
    application. -/
theorem insert_between_purity_idem_witness :
    ∃ w1 midNew,
      insert_between CAT_STARTs CAT_ENDs (CAT_STARTs ++ CAT_ENDs) "<li>x</li>".data
          (some "<li>x</li>".data) = Except.ok w1 ∧
      w1 = (CAT_STARTs ++ CAT_ENDs).take (0 + CAT_STARTs.length) ++ midNew ++
        (CAT_STARTs ++ CAT_ENDs).drop CAT_STARTs.length ∧
      insert_between CAT_STARTs CAT_ENDs w1 "<li>x</li>".data (some "<li>x</li>".data) =
        Except.ok w1 :=
  insert_between_purity_and_dedupe_idempotent (CAT_STARTs ++ CAT_ENDs) "<li>x</li>".data 0
    CAT_STARTs.length (by decide) (by decide) (by decide) (by decide) (by decide) (by decide)

end NewBookmark
